import Mathlib

/-!
# Verification of the WikiFlow backlink-recommendation pipeline

A shallow embedding of the `getRecommendations` function of the
`useBacklinkRecommendations` hook (src/unnamed/part_000, lines 91-234) and
proofs about it.

Modelling conventions:
* `Math.random()` is an ambient stream of rationals in `[0,1)`, modelled as a
  function `Nat → ℚ` consumed at increasing offsets in the exact order the
  source draws randomness: first the source-article sampling loop, then one
  coin per sampled article (the coin flips run synchronously while the link
  promises are created), then the Fisher-Yates shuffle draws.
* The injected fetchers (`fetchArticleBacklinks`, `fetchArticleLinks`,
  `fetchArticleSummary`) are total functions into `Except String _`;
  a `.error` value models a thrown/rejected fetch.  `fetchArticleSummary`
  returns `Option SummaryRecord` because the wrapped query function returns
  `response.article`, which may be null.
* The React state setters (`setLoading`, `setError`) and the issued network
  requests are reflected in the `RunOutcome` record returned by the model.
* `limit` is an `Int` (the JS parameter is a number and nothing in the code
  restricts it to be positive).
-/

namespace WikiFlow

/-! ## Data model -/

/-- An entry of the visited-article history (`VisitedArticle` in the spec). -/
structure VisitedArticle where
  title : String
  visitedAt : Int
deriving Repr, DecidableEq

/-- The summary record returned by the summary endpoint (`response.article`). -/
structure SummaryRecord where
  title : String
  displaytitle : Option String := none
  description : Option String := none
  extract : Option String := none
  thumbnail : Option String := none
  pageid : Option Int := none
deriving Repr, DecidableEq

/-- A recommendation list entry, as assembled at lines 195-202 / 207-210. -/
structure RecommendationItem where
  title : String
  displaytitle : Option String := none
  description : Option String := none
  extract : Option String := none
  thumbnail : Option String := none
  pageid : Option Int := none
deriving Repr, DecidableEq

/-- A network request issued through the query client, identified by query
kind and subject title. -/
inductive Request where
  | backlinks (title : String)
  | links (title : String)
  | summary (title : String)
deriving Repr, DecidableEq

/-- The three injected fetchers of the pipeline. -/
structure Fetchers where
  fetchArticleBacklinks : String → Except String (List String)
  fetchArticleLinks : String → Except String (List String)
  fetchArticleSummary : String → Except String (Option SummaryRecord)

/-- Observable outcome of one `getRecommendations` call: resolved value,
final `error` state, final `loading` state, and the requests issued. -/
structure RunOutcome where
  result : List RecommendationItem
  error : Option String
  loading : Bool
  requests : List Request
deriving Repr, DecidableEq

/-! ## Randomness -/

/-- The ambient random stream: `rng n` is the value of the `n`-th call of
`Math.random()` during the run. -/
def Rng : Type := Nat → ℚ

/-- The contract of `Math.random()`: every draw lies in `[0, 1)`. -/
def ValidRng (rng : Rng) : Prop := ∀ n, 0 ≤ rng n ∧ rng n < 1

/-- `Math.floor(r * n)` for a draw `r`, as a natural number index. -/
def floorMul (r : ℚ) (n : Nat) : Nat := (Rat.floor (r * (n : ℚ))).toNat

/-- A concrete random stream that repeats one value, for concrete runs. -/
def constRng (q : ℚ) : Rng := fun _ => q

/-! ## Arithmetic helpers from the source -/

/-- `Math.ceil(limit / 2)` on an integer `limit`. -/
def ceilHalf (limit : Int) : Int := (limit + 1) / 2

/-- `arr.slice(0, stop)` of JavaScript: a nonnegative `stop` takes the first
`stop` elements, a negative `stop` counts from the end. -/
def jsSlice {α : Type} (l : List α) (stop : Int) : List α :=
  if 0 ≤ stop then l.take stop.toNat else l.take ((l.length : Int) + stop).toNat

/-! ## Stage 1: source-article sampling (lines 106-118)

The JS `Set` of available indices iterates in insertion order, so
`Array.from(availableIndices)` is the pool as an ordered list and
`availableIndices.delete` is removal at a position. -/

/-- One sampling loop: each step draws `r`, picks the element of the pool at
position `Math.floor(r * pool.size)` and removes it; the loop also stops when
the pool is exhausted (the `availableIndices.size > 0` guard). -/
def samplePool : List ℚ → List Nat → List Nat
  | [], _ => []
  | _ :: _, [] => []
  | r :: rs, p :: ps =>
      let idx := floorMul r (p :: ps).length
      (p :: ps).getD idx 0 :: samplePool rs ((p :: ps).eraseIdx idx)

/-- `maxSourceArticles = Math.min(visitedArticles.length, Math.ceil(limit / 2))`
(line 106). -/
def maxSourceArticles (n : Nat) (limit : Int) : Int :=
  min (n : Int) (ceilHalf limit)

/-- Number of iterations of the sampling loop, hence number of random draws it
consumes. -/
def sampleDrawCount (n : Nat) (limit : Int) : Nat :=
  (maxSourceArticles n limit).toNat

/-- The draws consumed by the sampling loop: stream offsets `0, 1, ...`. -/
def sampleDraws (rng : Rng) (n : Nat) (limit : Int) : List ℚ :=
  (List.range (sampleDrawCount n limit)).map rng

/-- The distinct indices of the visited history selected as source articles. -/
def selectedIndices (rng : Rng) (n : Nat) (limit : Int) : List Nat :=
  samplePool (sampleDraws rng n limit) (List.range n)

/-- The sampled source articles (`sourceArticles`, line 117). -/
def sourceArticlesOf (rng : Rng) (visited : List VisitedArticle) (limit : Int) :
    List VisitedArticle :=
  (selectedIndices rng visited.length limit).map
    (fun i => visited.getD i ⟨"", 0⟩)

/-! ## Stage 2: link-fetch fan-out (lines 121-148) -/

/-- Stream offset of the coin flips: they come right after the sampling
draws. -/
def coinBase (n : Nat) (limit : Int) : Nat := sampleDrawCount n limit

/-- The link fetch attempted for the `k`-th source article: the coin
`Math.random() > 0.5` picks backlinks, otherwise forward links (line 123). -/
def linkAttempt (f : Fetchers) (rng : Rng) (visited : List VisitedArticle)
    (limit : Int) (k : Nat) : Except String (List String) :=
  let title := ((sourceArticlesOf rng visited limit).getD k ⟨"", 0⟩).title
  if (1 : ℚ) / 2 < rng (coinBase visited.length limit + k) then
    f.fetchArticleBacklinks title
  else
    f.fetchArticleLinks title

/-- The request issued for the `k`-th source article. -/
def linkRequest (rng : Rng) (visited : List VisitedArticle)
    (limit : Int) (k : Nat) : Request :=
  let title := ((sourceArticlesOf rng visited limit).getD k ⟨"", 0⟩).title
  if (1 : ℚ) / 2 < rng (coinBase visited.length limit + k) then
    Request.backlinks title
  else
    Request.links title

/-- The per-article `try/catch` (lines 125-145): a failed fetch contributes an
empty link list. -/
def orEmpty : Except String (List String) → List String
  | .ok l => l
  | .error _ => []

/-- `linkResults = await Promise.all(linkPromises)` (line 148): every source
article contributes its fetched list, or `[]` on failure. -/
def linkResultsOf (f : Fetchers) (rng : Rng) (visited : List VisitedArticle)
    (limit : Int) : List (List String) :=
  (List.range (sourceArticlesOf rng visited limit).length).map
    (fun k => orEmpty (linkAttempt f rng visited limit k))

/-- The link requests issued, in order. -/
def linkRequestsOf (rng : Rng) (visited : List VisitedArticle)
    (limit : Int) : List Request :=
  (List.range (sourceArticlesOf rng visited limit).length).map
    (fun k => linkRequest rng visited limit k)

/-! ## Stage 3: merge and dedup (lines 150-159) -/

/-- The visited-title set (`visitedTitlesSet`, line 102), as a list used for
membership. -/
def visitedTitles (visited : List VisitedArticle) : List String :=
  visited.map (fun v => v.title)

/-- The body of the merge loop: push `t` unless it is visited or already
processed (`processedTitles` and `allCandidates` grow in lockstep, so the
accumulator plays both roles). -/
def addCandidate (vt : List String) (acc : List String) (t : String) :
    List String :=
  if t ∈ vt ∨ t ∈ acc then acc else acc ++ [t]

/-- Flatten all link lists and dedup in one pass, first-seen wins. -/
def mergeCandidates (vt : List String) (lists : List (List String)) :
    List String :=
  lists.foldl (fun acc l => l.foldl (addCandidate vt) acc) []

/-- The deduplicated unvisited candidate pool (`allCandidates`). -/
def allCandidatesOf (f : Fetchers) (rng : Rng) (visited : List VisitedArticle)
    (limit : Int) : List String :=
  mergeCandidates (visitedTitles visited) (linkResultsOf f rng visited limit)

/-! ## Stage 4: Fisher-Yates shuffle (lines 161-166) -/

/-- Swap the entries of `l` at positions `i` and `j`
(`[a[i], a[j]] = [a[j], a[i]]`); out-of-range positions leave `l` unchanged
(the loop only ever swaps in range). -/
def swapAt {α : Type} (l : List α) (i j : Nat) : List α :=
  match l[i]?, l[j]? with
  | some a, some b => (l.set i b).set j a
  | _, _ => l

/-- The shuffle loop: the first argument of the recursion is the current loop
index `i` (running from `l.length - 1` down to `1`), and `cs` supplies the
drawn swap index `j ∈ [0, i]` for each step. -/
def fyLoop {α : Type} (l : List α) : Nat → List Nat → List α
  | 0, _ => l
  | _ + 1, [] => l
  | i + 1, c :: cs => fyLoop (swapAt l (i + 1) c) i cs

/-- Validity of a choice vector for the loop starting at index `i`: one choice
per iteration, each in `[0, current index]`. -/
def ValidFor : Nat → List Nat → Prop
  | 0, cs => cs = []
  | _ + 1, [] => False
  | i + 1, c :: cs => c ≤ i + 1 ∧ ValidFor i cs

/-- The swap indices the source derives from the stream: at the step with
current index `i = len - 1 - k` it draws `r` and uses
`j = Math.floor(r * (i + 1))`. -/
def shuffleChoices (rng : Rng) (base len : Nat) : List Nat :=
  (List.range (len - 1)).map (fun k => floorMul (rng (base + k)) (len - k))

/-- Stream offset of the shuffle draws: after sampling and the coin flips. -/
def shuffleBase (rng : Rng) (visited : List VisitedArticle) (limit : Int) :
    Nat :=
  coinBase visited.length limit + (sourceArticlesOf rng visited limit).length

/-- The in-place Fisher-Yates shuffle of lines 163-166. -/
def fyShuffle {α : Type} (rng : Rng) (base : Nat) (l : List α) : List α :=
  fyLoop l (l.length - 1) (shuffleChoices rng base l.length)

/-- The shuffled candidate list. -/
def shuffledOf (f : Fetchers) (rng : Rng) (visited : List VisitedArticle)
    (limit : Int) : List String :=
  fyShuffle rng (shuffleBase rng visited limit)
    (allCandidatesOf f rng visited limit)

/-! ## Stage 5: candidate selection and summary resolution (lines 168-224) -/

/-- `candidateTitles.push(...allCandidates.slice(0, limit))` (line 169). -/
def candidateTitlesOf (f : Fetchers) (rng : Rng) (visited : List VisitedArticle)
    (limit : Int) : List String :=
  jsSlice (shuffledOf f rng visited limit) limit

/-- The titles submitted to summary fetching.  The loop guard (line 180) is
`i < fetchLimit && recommendations.length < limit`, and `recommendations` is
still empty while the loop runs (items are only pushed after the join at line
218), so the second conjunct is `0 < limit` throughout. -/
def summaryTargets (candidateTitles : List String) (limit : Int) :
    List String :=
  if 0 < limit then
    candidateTitles.take (min (candidateTitles.length : Int) (limit + 5)).toNat
  else []

/-- The titles submitted to summary fetching in a run. -/
def summaryTargetsOf (f : Fetchers) (rng : Rng) (visited : List VisitedArticle)
    (limit : Int) : List String :=
  summaryTargets (candidateTitlesOf f rng visited limit) limit

/-- The degraded item substituted when the summary fetch throws (lines
207-210). -/
def stubItem (title : String) : RecommendationItem :=
  { title := title, displaytitle := some title }

/-- The item assembled from a summary record (lines 195-202). -/
def fullItem (s : SummaryRecord) : RecommendationItem :=
  { title := s.title, displaytitle := s.displaytitle,
    description := s.description, extract := s.extract,
    thumbnail := s.thumbnail, pageid := s.pageid }

/-- Resolution of one candidate (lines 182-212): a record yields a full item,
a null article yields `null`, a thrown fetch yields the degraded stub. -/
def resolveSummary (f : Fetchers) (title : String) :
    Option RecommendationItem :=
  match f.fetchArticleSummary title with
  | .ok (some s) => some (fullItem s)
  | .ok none => none
  | .error _ => some (stubItem title)

/-- The collection loop of lines 219-223: keep non-null results while fewer
than `limit` items have been kept. -/
def collectRecommendations (limit : Int)
    (results : List (Option RecommendationItem)) : List RecommendationItem :=
  results.foldl
    (fun acc r =>
      match r with
      | some item => if (acc.length : Int) < limit then acc ++ [item] else acc
      | none => acc)
    []

/-- The assembled recommendation list of a run. -/
def recommendationsOf (f : Fetchers) (rng : Rng)
    (visited : List VisitedArticle) (limit : Int) : List RecommendationItem :=
  collectRecommendations limit
    ((summaryTargetsOf f rng visited limit).map (resolveSummary f))

/-- All requests issued in a run, in order. -/
def requestsOf (f : Fetchers) (rng : Rng) (visited : List VisitedArticle)
    (limit : Int) : List Request :=
  linkRequestsOf rng visited limit ++
    (summaryTargetsOf f rng visited limit).map Request.summary

/-! ## Top level (lines 91-234) -/

/-- The body of the `try` block: the early return for an empty history
(lines 97-99), otherwise the full pipeline.  An `.error` value would model an
exception escaping the pipeline. -/
def recommendationsBody (f : Fetchers) (rng : Rng)
    (visited : List VisitedArticle) (limit : Int) :
    Except String (List RecommendationItem × List Request) :=
  if visited.length = 0 then .ok ([], [])
  else .ok (recommendationsOf f rng visited limit, requestsOf f rng visited limit)

/-- `getRecommendations(limit)`: sets `loading`, clears `error`, runs the
body; the top-level `catch` (lines 226-228) turns an escaping exception into
the error message plus an empty result, and the `finally` (lines 229-231)
clears `loading` on every path. -/
def getRecommendations (f : Fetchers) (rng : Rng)
    (visited : List VisitedArticle) (limit : Int) : RunOutcome :=
  match recommendationsBody f rng visited limit with
  | .ok (recs, reqs) =>
      { result := recs, error := none, loading := false, requests := reqs }
  | .error _ =>
      { result := [], error := some "Failed to fetch recommendations",
        loading := false, requests := [] }

/-! ## Concrete fixtures for counterexamples and witnesses -/

/-- Fetchers whose link queries yield three candidates and whose summary
fetch always throws. -/
def fxC1 : Fetchers :=
  { fetchArticleBacklinks := fun _ => .ok ["X", "Y", "Z"]
    fetchArticleLinks := fun _ => .ok ["X", "Y", "Z"]
    fetchArticleSummary := fun t => .error ("fail " ++ t) }

/-- A one-article visit history. -/
def vC1 : List VisitedArticle := [⟨"A", 0⟩]

/-- Fetchers whose summary fetch succeeds with a null article. -/
def fxC2 : Fetchers :=
  { fetchArticleBacklinks := fun _ => .ok ["X"]
    fetchArticleLinks := fun _ => .ok ["X"]
    fetchArticleSummary := fun _ => .ok none }

/-- A one-article visit history. -/
def vC2 : List VisitedArticle := [⟨"A", 0⟩]

/-- Fetchers whose summary endpoint redirects every candidate to a record
titled like the visited article. -/
def fxC3 : Fetchers :=
  { fetchArticleBacklinks := fun _ => .ok ["X"]
    fetchArticleLinks := fun _ => .ok ["X"]
    fetchArticleSummary := fun _ => .ok (some { title := "A" }) }

/-- Fetchers whose summary fetch always throws (so the title-preservation
hypothesis holds vacuously). -/
def fxC3w : Fetchers :=
  { fetchArticleBacklinks := fun _ => .ok ["X"]
    fetchArticleLinks := fun _ => .ok ["X"]
    fetchArticleSummary := fun t => .error ("fail " ++ t) }

/-- A one-article visit history. -/
def vC3 : List VisitedArticle := [⟨"A", 0⟩]

/-- Fetchers whose backlink query throws for one specific title. -/
def fxC7 : Fetchers :=
  { fetchArticleBacklinks := fun t => if t = "B" then .error "boom" else .ok ["X"]
    fetchArticleLinks := fun _ => .ok ["Y"]
    fetchArticleSummary := fun t => .error ("fail " ++ t) }

/-- A two-article visit history. -/
def vC7 : List VisitedArticle := [⟨"A", 0⟩, ⟨"B", 1⟩]

/-! ## Helper lemmas: floor draws -/

/-- Batteries' computable `Rat.floor` agrees with the `Int.floor` of the
`FloorRing` instance. -/
lemma ratFloor_eq_intFloor (q : ℚ) : Rat.floor q = ⌊q⌋ := by
  rw [Rat.floor_def' q, Rat.floor_def]

/-- A draw in `[0,1)` scaled by `n` and floored lands strictly below `n`. -/
lemma floorMul_lt {r : ℚ} (h0 : 0 ≤ r) (h1 : r < 1) {n : Nat} (hn : 0 < n) :
    floorMul r n < n := by
  unfold floorMul
  rw [ratFloor_eq_intFloor]
  have hcast : (0 : ℚ) < (n : ℚ) := by exact_mod_cast hn
  have hfl : ⌊r * (n : ℚ)⌋ < (n : Int) := by
    rw [Int.floor_lt]
    push_cast
    exact mul_lt_of_lt_one_left hcast h1
  have hnn : 0 ≤ ⌊r * (n : ℚ)⌋ :=
    Int.floor_nonneg.mpr (mul_nonneg h0 (le_of_lt hcast))
  omega

/-- The swap index drawn for current loop index `i` lies in `[0, i]`. -/
lemma floorMul_le {r : ℚ} (h0 : 0 ≤ r) (h1 : r < 1) (i : Nat) :
    floorMul r (i + 1) ≤ i := by
  have := floorMul_lt h0 h1 (n := i + 1) (by omega)
  omega

/-! ## Helper lemmas: merge and dedup -/

/-- The merge accumulator invariant: no duplicates and no visited titles. -/
lemma addCandidate_inv {vt acc : List String} (t : String)
    (h : acc.Nodup ∧ ∀ x ∈ acc, x ∉ vt) :
    (addCandidate vt acc t).Nodup ∧ ∀ x ∈ addCandidate vt acc t, x ∉ vt := by
  unfold addCandidate
  by_cases hmem : t ∈ vt ∨ t ∈ acc
  · simpa [hmem] using h
  · push_neg at hmem
    rw [if_neg (by tauto)]
    constructor
    · rw [List.nodup_append]
      exact ⟨h.1, List.nodup_singleton t,
        by intro x hx hx'; simp at hx'; exact hmem.2 (hx' ▸ hx)⟩
    · intro x hx
      rcases List.mem_append.mp hx with hx' | hx'
      · exact h.2 x hx'
      · simp at hx'; exact hx' ▸ hmem.1

/-- The invariant is preserved across one link list. -/
lemma foldl_addCandidate_inv (vt : List String) :
    ∀ (ts : List String) (acc : List String),
      (acc.Nodup ∧ ∀ x ∈ acc, x ∉ vt) →
      ((ts.foldl (addCandidate vt) acc).Nodup ∧
        ∀ x ∈ ts.foldl (addCandidate vt) acc, x ∉ vt) := by
  intro ts
  induction ts with
  | nil => intro acc h; exact h
  | cons t ts ih => intro acc h; exact ih _ (addCandidate_inv t h)

/-- The merged candidate pool, with the accumulator generalized. -/
lemma mergeCandidates_inv (vt : List String) (lists : List (List String)) :
    ∀ (acc : List String), (acc.Nodup ∧ ∀ x ∈ acc, x ∉ vt) →
      ((lists.foldl (fun acc l => l.foldl (addCandidate vt) acc) acc).Nodup ∧
        ∀ x ∈ lists.foldl (fun acc l => l.foldl (addCandidate vt) acc) acc,
          x ∉ vt) := by
  induction lists with
  | nil => intro acc h; exact h
  | cons l lists ih => intro acc h; exact ih _ (foldl_addCandidate_inv vt l acc h)

/-- The merged candidate pool has no duplicate titles. -/
lemma mergeCandidates_nodup (vt : List String) (lists : List (List String)) :
    (mergeCandidates vt lists).Nodup :=
  (mergeCandidates_inv vt lists [] ⟨List.nodup_nil, by simp⟩).1

/-- No merged candidate is a visited title. -/
lemma mergeCandidates_not_visited (vt : List String)
    (lists : List (List String)) :
    ∀ x ∈ mergeCandidates vt lists, x ∉ vt :=
  (mergeCandidates_inv vt lists [] ⟨List.nodup_nil, by simp⟩).2

/-! ## Helper lemmas: the collection loop -/

/-- The collection loop with a partially filled accumulator. -/
lemma collect_go (limit : Int) :
    ∀ (rs : List (Option RecommendationItem)) (acc : List RecommendationItem),
      (acc.length : Int) ≤ limit →
      rs.foldl
          (fun acc r =>
            match r with
            | some item =>
                if (acc.length : Int) < limit then acc ++ [item] else acc
            | none => acc)
          acc =
        acc ++ (rs.filterMap id).take (limit - acc.length).toNat := by
  intro rs
  induction rs with
  | nil => intro acc _; simp
  | cons r rs ih =>
      intro acc hacc
      match r with
      | none => simpa using ih acc hacc
      | some item =>
          by_cases hlt : (acc.length : Int) < limit
          · rw [List.foldl_cons]
            simp only [hlt, if_pos]
            rw [ih (acc ++ [item]) (by simp; omega)]
            have htn : (limit - (acc.length : Int)).toNat =
                (limit - ((acc ++ [item]).length : Int)).toNat + 1 := by
              simp only [List.length_append, List.length_singleton]
              push_cast
              omega
            rw [htn]
            simp [List.filterMap_cons, List.take_succ_cons, List.append_assoc]
          · have heq : (acc.length : Int) = limit := le_antisymm hacc
              (not_lt.mp hlt)
            rw [List.foldl_cons]
            simp only [hlt, if_neg, not_false_iff]
            rw [ih acc hacc]
            have : (limit - (acc.length : Int)).toNat = 0 := by omega
            simp [this]

/-- For a nonnegative `limit` the collection loop keeps the first `limit`
non-null results, in order. -/
lemma collectRecommendations_eq_take {limit : Int} (h : 0 ≤ limit)
    (rs : List (Option RecommendationItem)) :
    collectRecommendations limit rs = (rs.filterMap id).take limit.toNat := by
  unfold collectRecommendations
  rw [collect_go limit rs [] (by simp; omega)]
  simp

/-- For a nonpositive `limit` the collection loop keeps nothing. -/
lemma collectRecommendations_nonpos {limit : Int} (h : limit ≤ 0)
    (rs : List (Option RecommendationItem)) :
    collectRecommendations limit rs = [] := by
  unfold collectRecommendations
  have hgo : ∀ (l : List (Option RecommendationItem))
      (acc : List RecommendationItem),
      l.foldl
          (fun acc r =>
            match r with
            | some item =>
                if (acc.length : Int) < limit then acc ++ [item] else acc
            | none => acc)
          acc = acc := by
    intro l
    induction l with
    | nil => intro acc; rfl
    | cons r l ih =>
        intro acc
        match r with
        | none => exact ih acc
        | some item =>
            have : ¬((acc.length : Int) < limit) := by
              have : (0 : Int) ≤ (acc.length : Int) := by positivity
              omega
            simp only [List.foldl_cons, this, if_neg, not_false_iff]
            exact ih acc
  exact hgo rs []

/-! ## Helper lemmas: swaps and the Fisher-Yates loop -/

/-- Moving the element at position `m` to the head while writing `x` at `m` is
a permutation. -/
lemma cons_set_perm {α : Type} :
    ∀ (t : List α) (m : Nat) (x b : α), t[m]? = some b →
      (b :: t.set m x).Perm (x :: t) := by
  intro t
  induction t with
  | nil => intro m x b h; simp at h
  | cons y t ih =>
      intro m x b h
      cases m with
      | zero =>
          simp only [List.getElem?_cons_zero, Option.some_inj] at h
          rw [← h, List.set_cons_zero]
          exact List.Perm.swap x y t
      | succ m =>
          simp only [List.getElem?_cons_succ] at h
          rw [List.set_cons_succ]
          exact ((List.Perm.swap y b (t.set m x)).trans
            ((ih m x b h).cons y)).trans (List.Perm.swap x y t)

/-- A double `set` that exchanges two present elements is a permutation. -/
lemma set_set_perm {α : Type} :
    ∀ (l : List α) (i j : Nat) (a b : α), l[i]? = some a → l[j]? = some b →
      ((l.set i b).set j a).Perm l := by
  intro l
  induction l with
  | nil => intro i j a b hi _; simp at hi
  | cons y t ih =>
      intro i j a b hi hj
      cases i with
      | zero =>
          simp only [List.getElem?_cons_zero, Option.some_inj] at hi
          rw [List.set_cons_zero]
          cases j with
          | zero => rw [List.set_cons_zero, ← hi]
          | succ m =>
              simp only [List.getElem?_cons_succ] at hj
              rw [List.set_cons_succ, ← hi]
              exact cons_set_perm t m y b hj
      | succ n =>
          simp only [List.getElem?_cons_succ] at hi
          rw [List.set_cons_succ]
          cases j with
          | zero =>
              simp only [List.getElem?_cons_zero, Option.some_inj] at hj
              rw [List.set_cons_zero, ← hj]
              exact cons_set_perm t n y a hi
          | succ m =>
              simp only [List.getElem?_cons_succ] at hj
              rw [List.set_cons_succ]
              exact (ih n m a b hi hj).cons y

/-- One swap of the shuffle loop permutes the list. -/
lemma swapAt_perm {α : Type} (l : List α) (i j : Nat) :
    (swapAt l i j).Perm l := by
  unfold swapAt
  split
  · next a b hi hj => exact set_set_perm l i j a b hi hj
  · exact List.Perm.refl l

/-- The whole shuffle loop permutes the list, for any choice vector. -/
lemma fyLoop_perm {α : Type} :
    ∀ (cs : List Nat) (l : List α) (i : Nat), (fyLoop l i cs).Perm l := by
  intro cs
  induction cs with
  | nil =>
      intro l i
      cases i with
      | zero => exact List.Perm.refl l
      | succ n => exact List.Perm.refl l
  | cons c cs ih =>
      intro l i
      cases i with
      | zero => exact List.Perm.refl l
      | succ n => exact (ih (swapAt l (n + 1) c) n).trans (swapAt_perm l (n + 1) c)

/-- The shuffle loop preserves length. -/
lemma fyLoop_length {α : Type} (l : List α) (i : Nat) (cs : List Nat) :
    (fyLoop l i cs).length = l.length :=
  (fyLoop_perm cs l i).length_eq

/-- A swap entirely inside the prefix commutes with appending an element. -/
lemma swapAt_append {α : Type} (l : List α) (x : α) (i j : Nat)
    (hi : i < l.length) (hj : j < l.length) :
    swapAt (l ++ [x]) i j = swapAt l i j ++ [x] := by
  have ha := List.getElem?_eq_getElem hi
  have hb := List.getElem?_eq_getElem hj
  have ha' : (l ++ [x])[i]? = some l[i] := by
    rw [List.getElem?_append, if_pos hi]; exact ha
  have hb' : (l ++ [x])[j]? = some l[j] := by
    rw [List.getElem?_append, if_pos hj]; exact hb
  simp only [swapAt, ha, hb, ha', hb']
  rw [List.set_append, if_pos hi, List.set_append,
    if_pos (show j < (l.set i l[j]).length by simpa using hj)]

/-- The shuffle loop touches only positions up to its current index, so it
commutes with appending an element past that index. -/
lemma fyLoop_append {α : Type} :
    ∀ (cs : List Nat) (i : Nat) (l : List α) (x : α), ValidFor i cs →
      i < l.length → fyLoop (l ++ [x]) i cs = fyLoop l i cs ++ [x] := by
  intro cs
  induction cs with
  | nil =>
      intro i l x hv _
      cases i with
      | zero => rfl
      | succ n => exact absurd hv (by simp [ValidFor])
  | cons c cs ih =>
      intro i l x hv hi
      cases i with
      | zero => exact absurd hv (by simp [ValidFor])
      | succ n =>
          have hv' : c ≤ n + 1 ∧ ValidFor n cs := hv
          show fyLoop (swapAt (l ++ [x]) (n + 1) c) n cs =
            fyLoop (swapAt l (n + 1) c) n cs ++ [x]
          rw [swapAt_append l x (n + 1) c hi (lt_of_le_of_lt hv'.1 hi)]
          exact ih n (swapAt l (n + 1) c) x hv'.2
            (by have := (swapAt_perm l (n + 1) c).length_eq; omega)

/-- Setting a position to the value already there is the identity. -/
lemma set_getElem?_self {α : Type} :
    ∀ (l : List α) (i : Nat) (a : α), l[i]? = some a → l.set i a = l := by
  intro l
  induction l with
  | nil => intro i a h; simp at h
  | cons y t ih =>
      intro i a h
      cases i with
      | zero =>
          simp only [List.getElem?_cons_zero, Option.some_inj] at h
          rw [List.set_cons_zero, h]
      | succ n =>
          simp only [List.getElem?_cons_succ] at h
          rw [List.set_cons_succ, ih n a h]

/-- The swap with the last position, written as an operation on the `dropLast`
prefix: position `c` receives the last element `a`, and the element `b` that
was at `c` moves to the end. -/
lemma swapAt_last {α : Type} (l : List α) (n c : Nat) (a b : α)
    (hl : l.length = n + 1) (hc : c ≤ n) (ha : l[n]? = some a)
    (hb : l[c]? = some b) :
    swapAt l n c = l.dropLast.set c a ++ [b] := by
  have hne : l ≠ [] := by
    intro h
    rw [h] at hl
    simp at hl
  have hnlt : n < l.length := by omega
  have hsome := List.getElem?_eq_getElem hnlt
  have hgeta : l[n] = a := by
    rw [ha] at hsome
    exact Option.some_inj.mp hsome.symm
  have hlast : l.getLast hne = a := by
    rw [List.getLast_eq_getElem l hne]
    have hidx : l.length - 1 = n := by omega
    simp only [hidx]
    exact hgeta
  have hdl : l.dropLast ++ [a] = l := by
    rw [← hlast]
    exact List.dropLast_append_getLast hne
  have hdlen : l.dropLast.length = n := by
    rw [List.length_dropLast, hl]
    omega
  have hset_n : l.set n b = l.dropLast ++ [b] := by
    conv_lhs => rw [← hdl]
    rw [List.set_append, if_neg (by omega)]
    simp [hdlen]
  have hswap : swapAt l n c = (l.set n b).set c a := by
    simp only [swapAt, ha, hb]
  rcases Nat.lt_or_ge c n with hcn | hcn
  · -- c strictly inside the prefix
    rw [hswap, hset_n, List.set_append, if_pos (by omega)]
  · -- c = n: the swap exchanges the last element with itself
    have hceq : c = n := le_antisymm hc hcn
    subst hceq
    have hab : a = b := by
      rw [ha] at hb
      exact Option.some_inj.mp hb
    rw [hswap, hset_n, List.set_append, if_neg (by omega)]
    simp [hdlen, hab, List.set_eq_of_length_le (le_of_eq hdlen)]

/-- Unfolding one iteration of the full shuffle run on a list of length
`m + 2`: the chosen element moves to the last slot and the rest is a full
shuffle run of the remaining prefix. -/
lemma fyLoop_succ_decomp {α : Type} (l : List α) (m c : Nat) (cs : List Nat)
    (a b : α) (hl : l.length = m + 2) (hc : c ≤ m + 1) (hv : ValidFor m cs)
    (ha : l[m + 1]? = some a) (hb : l[c]? = some b) :
    fyLoop l (m + 1) (c :: cs) = fyLoop (l.dropLast.set c a) m cs ++ [b] := by
  show fyLoop (swapAt l (m + 1) c) m cs = _
  rw [swapAt_last l (m + 1) c a b hl hc ha hb]
  exact fyLoop_append cs m (l.dropLast.set c a) b hv
    (by simp [List.length_dropLast, hl])

/-- On a duplicate-free list, distinct valid choice vectors produce distinct
shuffle outputs. -/
lemma fyLoop_inj_aux {α : Type} :
    ∀ (N : Nat) (l : List α), l.length = N → l.Nodup →
      ∀ cs cs2, ValidFor (l.length - 1) cs → ValidFor (l.length - 1) cs2 →
        fyLoop l (l.length - 1) cs = fyLoop l (l.length - 1) cs2 → cs = cs2 := by
  intro N
  induction N using Nat.strong_induction_on with
  | _ N ih =>
    intro l hl hnd cs cs2 hv hv2 heq
    rcases N with _ | N
    · have hidx : l.length - 1 = 0 := by omega
      rw [hidx] at hv hv2
      exact hv.trans hv2.symm
    rcases N with _ | m
    · have hidx : l.length - 1 = 0 := by omega
      rw [hidx] at hv hv2
      exact hv.trans hv2.symm
    have hlen : l.length = m + 2 := hl
    have hidx : l.length - 1 = m + 1 := by omega
    rw [hidx] at hv hv2 heq
    cases cs with
    | nil => exact absurd hv (by simp [ValidFor])
    | cons c rest =>
    cases cs2 with
    | nil => exact absurd hv2 (by simp [ValidFor])
    | cons c2 rest2 =>
    have hv' : c ≤ m + 1 ∧ ValidFor m rest := hv
    have hv2' : c2 ≤ m + 1 ∧ ValidFor m rest2 := hv2
    have hm1 : m + 1 < l.length := by omega
    have hclt : c < l.length := by omega
    have hc2lt : c2 < l.length := by omega
    have ha := List.getElem?_eq_getElem hm1
    have hbc := List.getElem?_eq_getElem hclt
    have hbc2 := List.getElem?_eq_getElem hc2lt
    rw [fyLoop_succ_decomp l m c rest (l[m + 1]) (l[c]) hlen hv'.1 hv'.2 ha hbc,
      fyLoop_succ_decomp l m c2 rest2 (l[m + 1]) (l[c2]) hlen hv2'.1 hv2'.2 ha
        hbc2] at heq
    have hlen_runs :
        (fyLoop (l.dropLast.set c (l[m + 1])) m rest).length =
          (fyLoop (l.dropLast.set c2 (l[m + 1])) m rest2).length := by
      rw [fyLoop_length, fyLoop_length]
      simp
    obtain ⟨heq1, heq2⟩ := List.append_inj heq hlen_runs
    have hcc : l[c] = l[c2] := by simpa using heq2
    have hceq : c = c2 := (hnd.getElem_inj_iff).mp hcc
    subst hceq
    have hrest : rest = rest2 := by
      have hflen : (l.dropLast.set c (l[m + 1])).length = m + 1 := by
        simp [List.length_dropLast, hlen]
      have hfnd : (l.dropLast.set c (l[m + 1])).Nodup := by
        have hswap : swapAt l (m + 1) c =
            l.dropLast.set c (l[m + 1]) ++ [l[c]] :=
          swapAt_last l (m + 1) c (l[m + 1]) (l[c]) hlen hv'.1 ha hbc
        have hperm : (l.dropLast.set c (l[m + 1]) ++ [l[c]]).Perm l := by
          rw [← hswap]
          exact swapAt_perm l (m + 1) c
        exact (List.nodup_append.mp (hperm.nodup_iff.mpr hnd)).1
      have := ih (m + 1) (by omega) (l.dropLast.set c (l[m + 1])) hflen hfnd
        rest rest2
        (by rw [show (l.dropLast.set c (l[m + 1])).length - 1 = m by omega]
            exact hv'.2)
        (by rw [show (l.dropLast.set c (l[m + 1])).length - 1 = m by omega]
            exact hv2'.2)
        (by rw [show (l.dropLast.set c (l[m + 1])).length - 1 = m by omega]
            exact heq1)
      exact this
    rw [hrest]

/-- Every permutation of the input list is reached by some valid choice
vector. -/
lemma fyLoop_surj_aux {α : Type} [DecidableEq α] :
    ∀ (N : Nat) (l l2 : List α), l.length = N → l2.Perm l →
      ∃ cs, ValidFor (l.length - 1) cs ∧ fyLoop l (l.length - 1) cs = l2 := by
  intro N
  induction N using Nat.strong_induction_on with
  | _ N ih =>
    intro l l2 hl hperm
    rcases N with _ | N
    · have hnil : l = [] := List.length_eq_zero.mp hl
      subst hnil
      have h2 : l2 = [] := List.perm_nil.mp hperm
      subst h2
      exact ⟨[], rfl, rfl⟩
    rcases N with _ | m
    · obtain ⟨x, hx⟩ := List.length_eq_one.mp hl
      subst hx
      have h2 : l2 = [x] := List.perm_singleton.mp hperm
      subst h2
      exact ⟨[], rfl, rfl⟩
    have hlen : l.length = m + 2 := hl
    have hne2 : l2 ≠ [] := by
      intro h
      rw [h] at hperm
      have hz := hperm.length_eq
      simp [hlen] at hz
    have hbmem : l2.getLast hne2 ∈ l := hperm.mem_iff.mp (List.getLast_mem hne2)
    have hclt : List.indexOf (l2.getLast hne2) l < l.length :=
      List.indexOf_lt_length.mpr hbmem
    have hc : List.indexOf (l2.getLast hne2) l ≤ m + 1 := by omega
    have hm1 : m + 1 < l.length := by omega
    have ha := List.getElem?_eq_getElem hm1
    have hb : l[List.indexOf (l2.getLast hne2) l]? = some (l2.getLast hne2) := by
      rw [List.getElem?_eq_getElem hclt, List.getElem_indexOf hclt]
    have hflen :
        (l.dropLast.set (List.indexOf (l2.getLast hne2) l) (l[m + 1])).length =
          m + 1 := by
      simp [List.length_dropLast, hlen]
    have hswap : swapAt l (m + 1) (List.indexOf (l2.getLast hne2) l) =
        l.dropLast.set (List.indexOf (l2.getLast hne2) l) (l[m + 1]) ++
          [l2.getLast hne2] :=
      swapAt_last l (m + 1) (List.indexOf (l2.getLast hne2) l) (l[m + 1])
        (l2.getLast hne2) hlen hc ha hb
    have hfp :
        (l.dropLast.set (List.indexOf (l2.getLast hne2) l) (l[m + 1]) ++
          [l2.getLast hne2]).Perm l := by
      rw [← hswap]
      exact swapAt_perm l (m + 1) (List.indexOf (l2.getLast hne2) l)
    have hl2decomp : l2.dropLast ++ [l2.getLast hne2] = l2 :=
      List.dropLast_append_getLast hne2
    have hpf : l2.dropLast.Perm
        (l.dropLast.set (List.indexOf (l2.getLast hne2) l) (l[m + 1])) := by
      have h1 : (l2.dropLast ++ [l2.getLast hne2]).Perm
          (l.dropLast.set (List.indexOf (l2.getLast hne2) l) (l[m + 1]) ++
            [l2.getLast hne2]) := by
        rw [hl2decomp]
        exact hperm.trans hfp.symm
      exact (List.perm_append_right_iff [l2.getLast hne2]).mp h1
    obtain ⟨cs, hcs_valid, hcs_eq⟩ := ih (m + 1) (by omega)
      (l.dropLast.set (List.indexOf (l2.getLast hne2) l) (l[m + 1]))
      l2.dropLast hflen hpf
    have hidx : l.length - 1 = m + 1 := by omega
    have hcsv : ValidFor m cs := by
      rwa [show (l.dropLast.set (List.indexOf (l2.getLast hne2) l)
        (l[m + 1])).length - 1 = m by omega] at hcs_valid
    refine ⟨List.indexOf (l2.getLast hne2) l :: cs, ?_, ?_⟩
    · rw [hidx]
      exact ⟨hc, hcsv⟩
    · rw [hidx]
      rw [fyLoop_succ_decomp l m (List.indexOf (l2.getLast hne2) l) cs
        (l[m + 1]) (l2.getLast hne2) hlen hc hcsv ha hb]
      rw [show fyLoop
          (l.dropLast.set (List.indexOf (l2.getLast hne2) l) (l[m + 1])) m cs =
          l2.dropLast from by
        rwa [show (l.dropLast.set (List.indexOf (l2.getLast hne2) l)
          (l[m + 1])).length - 1 = m by omega] at hcs_eq]
      exact hl2decomp

/-- The Fisher-Yates loop is a bijection between valid choice vectors and
permutations of a duplicate-free list: every permutation arises from exactly
one valid choice vector. -/
lemma fyLoop_bij {α : Type} [DecidableEq α] (l : List α) (hnd : l.Nodup)
    (l2 : List α) (hperm : l2.Perm l) :
    ∃! cs, ValidFor (l.length - 1) cs ∧ fyLoop l (l.length - 1) cs = l2 := by
  obtain ⟨cs, hv, he⟩ := fyLoop_surj_aux l.length l l2 rfl hperm
  refine ⟨cs, ⟨hv, he⟩, ?_⟩
  intro cs2 h2
  exact fyLoop_inj_aux l.length l rfl hnd cs2 cs h2.1 hv (h2.2.trans he.symm)

/-! ## Helper lemmas: the index-pool sampler -/

/-- In a duplicate-free list, the element at a position does not survive the
removal of that position. -/
lemma getElem_not_mem_eraseIdx {α : Type} (l : List α) (hnd : l.Nodup)
    (i : Nat) (hi : i < l.length) : l[i] ∉ l.eraseIdx i := by
  rw [List.eraseIdx_eq_take_drop_succ]
  have hdecomp : l.take i ++ l[i] :: l.drop (i + 1) = l := by
    conv_rhs => rw [← List.take_append_drop i l]
    congr 1
    exact (List.drop_eq_getElem_cons hi).symm
  intro hmem
  have hnd2 : (l.take i ++ l[i] :: l.drop (i + 1)).Nodup := by
    rw [hdecomp]
    exact hnd
  rcases List.mem_append.mp hmem with h | h
  · have hdisj := (List.nodup_append.mp hnd2).2.2
    exact hdisj h (List.mem_cons_self _ _)
  · have hcons := (List.nodup_append.mp hnd2).2.1
    exact (List.nodup_cons.mp hcons).1 h

/-- The sampling loop with in-range draws: one selection per draw, no
repetition, and all selections come from the pool. -/
lemma samplePool_spec :
    ∀ (rs : List ℚ) (pool : List Nat), (∀ r ∈ rs, 0 ≤ r ∧ r < 1) →
      rs.length ≤ pool.length → pool.Nodup →
      (samplePool rs pool).length = rs.length ∧ (samplePool rs pool).Nodup ∧
        ∀ x ∈ samplePool rs pool, x ∈ pool := by
  intro rs
  induction rs with
  | nil =>
      intro pool _ _ _
      exact ⟨rfl, List.nodup_nil, by intro x hx; simp [samplePool] at hx⟩
  | cons r rs ih =>
      intro pool hval hlen hnd
      cases pool with
      | nil => simp at hlen
      | cons p ps =>
          have hpos : 0 < (p :: ps).length := by simp
          have hr := hval r (List.mem_cons_self r rs)
          have hidx : floorMul r (p :: ps).length < (p :: ps).length :=
            floorMul_lt hr.1 hr.2 hpos
          have hget : (p :: ps).getD (floorMul r (p :: ps).length) 0 =
              (p :: ps)[floorMul r (p :: ps).length] := by
            rw [List.getD_eq_getElem?_getD, List.getElem?_eq_getElem hidx]
            rfl
          have herlen :
              ((p :: ps).eraseIdx (floorMul r (p :: ps).length)).length =
                (p :: ps).length - 1 := by
            rw [List.length_eraseIdx, if_pos hidx]
          have hersub := List.eraseIdx_sublist (p :: ps)
            (floorMul r (p :: ps).length)
          have hernd := hersub.nodup hnd
          have hlen' : rs.length ≤
              ((p :: ps).eraseIdx (floorMul r (p :: ps).length)).length := by
            rw [herlen]
            simp at hlen
            simp
            omega
          obtain ⟨ihlen, ihnd, ihsub⟩ :=
            ih ((p :: ps).eraseIdx (floorMul r (p :: ps).length))
              (fun x hx => hval x (List.mem_cons_of_mem r hx)) hlen' hernd
          have hnotmem :=
            getElem_not_mem_eraseIdx (p :: ps) hnd
              (floorMul r (p :: ps).length) hidx
          refine ⟨?_, ?_, ?_⟩
          · show ((p :: ps).getD (floorMul r (p :: ps).length) 0 ::
              samplePool rs
                ((p :: ps).eraseIdx (floorMul r (p :: ps).length))).length = _
            rw [List.length_cons, ihlen, List.length_cons]
          · show ((p :: ps).getD (floorMul r (p :: ps).length) 0 ::
              samplePool rs
                ((p :: ps).eraseIdx (floorMul r (p :: ps).length))).Nodup
            rw [List.nodup_cons, hget]
            refine ⟨fun hmem => hnotmem (ihsub _ hmem), ihnd⟩
          · intro x hx
            have hx' : x ∈ (p :: ps).getD (floorMul r (p :: ps).length) 0 ::
                samplePool rs
                  ((p :: ps).eraseIdx (floorMul r (p :: ps).length)) := hx
            rcases List.mem_cons.mp hx' with h | h
            · rw [h, hget]
              exact List.getElem_mem hidx
            · exact hersub.subset (ihsub x h)

/-- Every draw the sampling stage consumes satisfies the random contract. -/
lemma sampleDraws_valid {rng : Rng} (h : ValidRng rng) (n : Nat) (limit : Int) :
    ∀ r ∈ sampleDraws rng n limit, 0 ≤ r ∧ r < 1 := by
  intro r hr
  simp only [sampleDraws, List.mem_map] at hr
  obtain ⟨k, _, rfl⟩ := hr
  exact h k

/-- The sampling stage consumes exactly `sampleDrawCount` draws. -/
lemma sampleDraws_length (rng : Rng) (n : Nat) (limit : Int) :
    (sampleDraws rng n limit).length = sampleDrawCount n limit := by
  simp [sampleDraws]

/-- `maxSourceArticles` never exceeds the history size. -/
lemma sampleDrawCount_le (n : Nat) (limit : Int) :
    sampleDrawCount n limit ≤ n := by
  unfold sampleDrawCount maxSourceArticles
  have := min_le_left (n : Int) (ceilHalf limit)
  omega

/-- The selected source indices: as many as draws, pairwise distinct, all
in range. -/
lemma selectedIndices_spec {rng : Rng} (h : ValidRng rng) (n : Nat)
    (limit : Int) :
    (selectedIndices rng n limit).length = sampleDrawCount n limit ∧
      (selectedIndices rng n limit).Nodup ∧
      ∀ i ∈ selectedIndices rng n limit, i < n := by
  unfold selectedIndices
  obtain ⟨h1, h2, h3⟩ := samplePool_spec (sampleDraws rng n limit)
    (List.range n) (sampleDraws_valid h n limit)
    (by rw [sampleDraws_length, List.length_range]
        exact sampleDrawCount_le n limit)
    (List.nodup_range n)
  exact ⟨by rw [h1, sampleDraws_length], h2,
    fun i hi => List.mem_range.mp (h3 i hi)⟩

/-! ## Helper lemmas: summary resolution -/

/-- A thrown summary fetch resolves to the degraded stub. -/
lemma resolveSummary_of_error (f : Fetchers) (t : String) (e : String)
    (h : f.fetchArticleSummary t = .error e) :
    resolveSummary f t = some (stubItem t) := by
  simp [resolveSummary, h]

/-- A summary fetch returning a record resolves to the full item. -/
lemma resolveSummary_of_ok_some (f : Fetchers) (t : String) (s : SummaryRecord)
    (h : f.fetchArticleSummary t = .ok (some s)) :
    resolveSummary f t = some (fullItem s) := by
  simp [resolveSummary, h]

/-- A summary fetch returning a null article resolves to nothing. -/
lemma resolveSummary_of_ok_none (f : Fetchers) (t : String)
    (h : f.fetchArticleSummary t = .ok none) : resolveSummary f t = none := by
  simp [resolveSummary, h]

/-- When every successful summary record carries the queried title, the titles
of the resolved items form a sublist of the queried titles. -/
lemma resolve_titles_sublist (f : Fetchers) :
    ∀ (ts : List String),
      (∀ t ∈ ts, ∀ s, f.fetchArticleSummary t = .ok (some s) → s.title = t) →
      (((ts.map (resolveSummary f)).filterMap id).map
        (fun it => it.title)).Sublist ts := by
  intro ts
  induction ts with
  | nil => simp
  | cons t ts ih =>
      intro h
      have hts := ih (fun u hu s hs => h u (List.mem_cons_of_mem t hu) s hs)
      rw [List.map_cons, List.filterMap_cons]
      cases hres : resolveSummary f t with
      | none => exact hts.cons t
      | some it =>
          have htitle : it.title = t := by
            unfold resolveSummary at hres
            cases hsum : f.fetchArticleSummary t with
            | ok o =>
                cases o with
                | some s =>
                    rw [hsum] at hres
                    simp only [Option.some_inj] at hres
                    rw [← hres]
                    exact h t (List.mem_cons_self t ts) s hsum
                | none =>
                    rw [hsum] at hres
                    simp at hres
            | error e =>
                rw [hsum] at hres
                simp only [Option.some_inj] at hres
                rw [← hres]
                rfl
          simp only [id_eq, List.map_cons, htitle]
          exact hts.cons₂ t

/-! ## Helper lemmas: pipeline projections -/

/-- A JS slice from index 0 is a sublist. -/
lemma jsSlice_sublist {α : Type} (l : List α) (stop : Int) :
    (jsSlice l stop).Sublist l := by
  unfold jsSlice
  split
  · exact List.take_sublist _ _
  · exact List.take_sublist _ _

/-- The titles selected for summary fetching form a sublist of the candidate
titles. -/
lemma summaryTargets_sublist (ct : List String) (limit : Int) :
    (summaryTargets ct limit).Sublist ct := by
  unfold summaryTargets
  split
  · exact List.take_sublist _ _
  · exact List.nil_sublist ct

/-- The deduplicated candidate pool has no duplicate titles. -/
lemma allCandidatesOf_nodup (f : Fetchers) (rng : Rng)
    (visited : List VisitedArticle) (limit : Int) :
    (allCandidatesOf f rng visited limit).Nodup :=
  mergeCandidates_nodup _ _

/-- No candidate is a visited title. -/
lemma allCandidatesOf_not_visited (f : Fetchers) (rng : Rng)
    (visited : List VisitedArticle) (limit : Int) :
    ∀ x ∈ allCandidatesOf f rng visited limit, x ∉ visitedTitles visited :=
  mergeCandidates_not_visited _ _

/-- The shuffle permutes the candidate pool. -/
lemma shuffledOf_perm (f : Fetchers) (rng : Rng)
    (visited : List VisitedArticle) (limit : Int) :
    (shuffledOf f rng visited limit).Perm (allCandidatesOf f rng visited limit) :=
  fyLoop_perm _ _ _

/-- The summary targets are a sublist of the shuffled candidates. -/
lemma summaryTargetsOf_sublist (f : Fetchers) (rng : Rng)
    (visited : List VisitedArticle) (limit : Int) :
    (summaryTargetsOf f rng visited limit).Sublist
      (shuffledOf f rng visited limit) :=
  (summaryTargets_sublist _ _).trans (jsSlice_sublist _ _)

/-- The summary targets have no duplicate titles. -/
lemma summaryTargetsOf_nodup (f : Fetchers) (rng : Rng)
    (visited : List VisitedArticle) (limit : Int) :
    (summaryTargetsOf f rng visited limit).Nodup :=
  (summaryTargetsOf_sublist f rng visited limit).nodup
    ((shuffledOf_perm f rng visited limit).nodup_iff.mpr
      (allCandidatesOf_nodup f rng visited limit))

/-- No summary target is a visited title. -/
lemma summaryTargetsOf_not_visited (f : Fetchers) (rng : Rng)
    (visited : List VisitedArticle) (limit : Int) :
    ∀ x ∈ summaryTargetsOf f rng visited limit, x ∉ visitedTitles visited :=
  fun x hx =>
    allCandidatesOf_not_visited f rng visited limit x
      ((shuffledOf_perm f rng visited limit).mem_iff.mp
        ((summaryTargetsOf_sublist f rng visited limit).subset hx))

/-! ## Helper lemmas: top-level unfoldings -/

/-- An empty history resolves immediately: empty result, no error, loading
cleared, and no network requests. -/
lemma getRecommendations_empty_visited (f : Fetchers) (rng : Rng)
    (limit : Int) :
    getRecommendations f rng [] limit =
      { result := [], error := none, loading := false, requests := [] } := rfl

/-- With a nonempty history the call runs the full pipeline and succeeds. -/
lemma getRecommendations_nonempty (f : Fetchers) (rng : Rng)
    (visited : List VisitedArticle) (limit : Int) (h : visited ≠ []) :
    getRecommendations f rng visited limit =
      { result := recommendationsOf f rng visited limit, error := none,
        loading := false, requests := requestsOf f rng visited limit } := by
  have hlen : ¬(visited.length = 0) := by
    simpa [List.length_eq_zero] using h
  unfold getRecommendations recommendationsBody
  rw [if_neg hlen]

/-- The model never reaches the catch branch: `error` ends up `none`. -/
lemma getRecommendations_error_none (f : Fetchers) (rng : Rng)
    (visited : List VisitedArticle) (limit : Int) :
    (getRecommendations f rng visited limit).error = none := by
  cases visited with
  | nil => rfl
  | cons v vs =>
      rw [getRecommendations_nonempty f rng (v :: vs) limit (by simp)]

/-- `loading` is cleared on every path. -/
lemma getRecommendations_loading_false (f : Fetchers) (rng : Rng)
    (visited : List VisitedArticle) (limit : Int) :
    (getRecommendations f rng visited limit).loading = false := by
  cases visited with
  | nil => rfl
  | cons v vs =>
      rw [getRecommendations_nonempty f rng (v :: vs) limit (by simp)]

/-! ## Helper lemmas: nonpositive limits -/

/-- A nonpositive limit samples no source articles. -/
lemma sampleDrawCount_nonpos {limit : Int} (h : limit ≤ 0) (n : Nat) :
    sampleDrawCount n limit = 0 := by
  unfold sampleDrawCount maxSourceArticles ceilHalf
  have h2 : (limit + 1) / 2 ≤ 0 := by omega
  have h3 := min_le_right (n : Int) ((limit + 1) / 2)
  omega

/-- A nonpositive limit selects no indices. -/
lemma selectedIndices_nonpos {limit : Int} (h : limit ≤ 0) (rng : Rng)
    (n : Nat) : selectedIndices rng n limit = [] := by
  unfold selectedIndices sampleDraws
  rw [sampleDrawCount_nonpos h]
  rfl

/-- A nonpositive limit selects no source articles. -/
lemma sourceArticlesOf_nonpos {limit : Int} (h : limit ≤ 0) (rng : Rng)
    (visited : List VisitedArticle) :
    sourceArticlesOf rng visited limit = [] := by
  unfold sourceArticlesOf
  rw [selectedIndices_nonpos h]
  rfl

/-- A nonpositive limit selects no summary targets. -/
lemma summaryTargets_nonpos {limit : Int} (h : limit ≤ 0)
    (ct : List String) : summaryTargets ct limit = [] := by
  unfold summaryTargets
  rw [if_neg (by omega)]

/-! ## Helper lemmas: how many summaries are fetched -/

/-- A JS slice with a nonnegative bound is a `take`. -/
lemma jsSlice_nonneg {α : Type} (l : List α) {stop : Int} (h : 0 ≤ stop) :
    jsSlice l stop = l.take stop.toNat := by
  unfold jsSlice
  rw [if_pos h]

/-- The number of titles submitted to summary fetching is
`min(candidateCount, limit)` — the `limit + 5` slack never applies because the
candidate list was already truncated to `limit`. -/
lemma summaryTargetsOf_length (f : Fetchers) (rng : Rng)
    (visited : List VisitedArticle) (limit : Int) :
    (summaryTargetsOf f rng visited limit).length =
      min (allCandidatesOf f rng visited limit).length limit.toNat := by
  by_cases hl : 0 < limit
  · have hct : candidateTitlesOf f rng visited limit =
        (shuffledOf f rng visited limit).take limit.toNat :=
      jsSlice_nonneg _ (le_of_lt hl)
    have hshuf : (shuffledOf f rng visited limit).length =
        (allCandidatesOf f rng visited limit).length :=
      (shuffledOf_perm f rng visited limit).length_eq
    have hctlen : (candidateTitlesOf f rng visited limit).length =
        min limit.toNat (allCandidatesOf f rng visited limit).length := by
      rw [hct, List.length_take, hshuf]
    unfold summaryTargetsOf summaryTargets
    rw [if_pos hl]
    have hmin : min ((candidateTitlesOf f rng visited limit).length : Int)
        (limit + 5) = ((candidateTitlesOf f rng visited limit).length : Int) := by
      rw [min_eq_left]
      have hle : (candidateTitlesOf f rng visited limit).length ≤
          limit.toNat := by
        rw [hctlen]
        exact min_le_left _ _
      omega
    rw [hmin, Int.toNat_natCast, List.take_length, hctlen]
    omega
  · rw [show summaryTargetsOf f rng visited limit = [] from
      summaryTargets_nonpos (by omega) _]
    have : limit.toNat = 0 := by omega
    simp [this]

/-! ## Helper lemmas: link results -/

/-- The `k`-th link result is exactly the outcome of the `k`-th attempt:
the fetched list on success, the empty list on failure. -/
lemma linkResultsOf_getD (f : Fetchers) (rng : Rng)
    (visited : List VisitedArticle) (limit : Int) (k : Nat)
    (hk : k < (sourceArticlesOf rng visited limit).length) :
    (linkResultsOf f rng visited limit).getD k [] =
      orEmpty (linkAttempt f rng visited limit k) := by
  unfold linkResultsOf
  rw [List.getD_eq_getElem?_getD, List.getElem?_map, List.getElem?_range hk]
  rfl

/-- The recommendation list, for a nonnegative limit: resolve every selected
title, drop the null resolutions, and keep the first `limit` items in
original order. -/
lemma recommendationsOf_eq_take (f : Fetchers) (rng : Rng)
    (visited : List VisitedArticle) {limit : Int} (h : 0 ≤ limit) :
    recommendationsOf f rng visited limit =
      (((summaryTargetsOf f rng visited limit).map
        (resolveSummary f)).filterMap id).take limit.toNat :=
  collectRecommendations_eq_take h _

/-! ## Claim theorems -/

/-- C1 (amended): the number of candidates submitted to summary fetching
equals `min(candidateCount, limit)` (clamped at 0 for negative limits), where
`candidateCount` is the size of the deduplicated unvisited candidate pool.
The `limit + 5` slack in `fetchLimit` never applies, because the candidate
list is truncated to `limit` before `fetchLimit` is computed. -/
theorem summary_fetch_count_eq_min_limit (f : Fetchers) (rng : Rng)
    (visited : List VisitedArticle) (limit : Int) :
    (summaryTargetsOf f rng visited limit).length =
      min (allCandidatesOf f rng visited limit).length limit.toNat :=
  summaryTargetsOf_length f rng visited limit

/-- C2 (amended): for a nonnegative limit the result is exactly the non-null
resolutions of the selected candidates, in original candidate order, truncated
to `limit`; a thrown summary fetch yields the degraded stub, a successful
fetch yields the full item, but a successful fetch with a null article yields
no item — that candidate is dropped. -/
theorem summary_resolution_collects_non_null_in_order (f : Fetchers)
    (rng : Rng) (visited : List VisitedArticle) {limit : Int}
    (h : 0 ≤ limit) :
    recommendationsOf f rng visited limit =
      (((summaryTargetsOf f rng visited limit).map
        (resolveSummary f)).filterMap id).take limit.toNat ∧
    (∀ t e, f.fetchArticleSummary t = .error e →
      resolveSummary f t = some (stubItem t)) ∧
    (∀ t s, f.fetchArticleSummary t = .ok (some s) →
      resolveSummary f t = some (fullItem s)) ∧
    (∀ t, f.fetchArticleSummary t = .ok none → resolveSummary f t = none) :=
  ⟨recommendationsOf_eq_take f rng visited h,
    fun t e he => resolveSummary_of_error f t e he,
    fun t s hs => resolveSummary_of_ok_some f t s hs,
    fun t ht => resolveSummary_of_ok_none f t ht⟩

/-- C3 (amended): for a nonempty history, a nonnegative limit, and a summary
fetcher whose successful records carry the queried title, the result has at
most `limit` items, pairwise distinct titles, and no visited title. -/
theorem results_bounded_distinct_unvisited (f : Fetchers) (rng : Rng)
    (visited : List VisitedArticle) (limit : Int) (hne : visited ≠ [])
    (hl : 0 ≤ limit)
    (hpres : ∀ t s, f.fetchArticleSummary t = .ok (some s) → s.title = t) :
    ((getRecommendations f rng visited limit).result.length : Int) ≤ limit ∧
    ((getRecommendations f rng visited limit).result.map
      (fun it => it.title)).Nodup ∧
    ∀ it ∈ (getRecommendations f rng visited limit).result,
      it.title ∉ visitedTitles visited := by
  have hres : (getRecommendations f rng visited limit).result =
      (((summaryTargetsOf f rng visited limit).map
        (resolveSummary f)).filterMap id).take limit.toNat := by
    rw [getRecommendations_nonempty f rng visited limit hne]
    exact recommendationsOf_eq_take f rng visited hl
  have hchain : (((((summaryTargetsOf f rng visited limit).map
      (resolveSummary f)).filterMap id).take limit.toNat).map
        (fun it => it.title)).Sublist (summaryTargetsOf f rng visited limit) := by
    rw [List.map_take]
    exact (List.take_sublist _ _).trans
      (resolve_titles_sublist f _ (fun t _ s hs => hpres t s hs))
  refine ⟨?_, ?_, ?_⟩
  · rw [hres]
    have h1 : ((((summaryTargetsOf f rng visited limit).map
        (resolveSummary f)).filterMap id).take limit.toNat).length ≤
          limit.toNat := by
      rw [List.length_take]
      exact min_le_left _ _
    omega
  · rw [hres]
    exact hchain.nodup (summaryTargetsOf_nodup f rng visited limit)
  · intro it hit
    rw [hres] at hit
    have hmem : it.title ∈ summaryTargetsOf f rng visited limit :=
      hchain.subset (List.mem_map_of_mem _ hit)
    exact summaryTargetsOf_not_visited f rng visited limit _ hmem

/-- C4: the candidate shuffle is an exact Fisher-Yates: a draw in `[0,1)`
scaled by `i + 1` gives a swap index in `[0, i]`, the output is a permutation
of the input for every choice vector, the pipeline shuffle is the loop run on
the derived choices, and on a duplicate-free list the loop is a bijection
between valid choice vectors and permutations — under a uniform random source
every permutation is equally likely. -/
theorem fisher_yates_unbiased_bijection (l : List String) (hnd : l.Nodup) :
    (∀ (r : ℚ) (i : Nat), 0 ≤ r → r < 1 → floorMul r (i + 1) ≤ i) ∧
    (∀ cs, (fyLoop l (l.length - 1) cs).Perm l) ∧
    (∀ (rng : Rng) (base : Nat), fyShuffle rng base l =
      fyLoop l (l.length - 1) (shuffleChoices rng base l.length)) ∧
    (∀ l2, l2.Perm l →
      ∃! cs, ValidFor (l.length - 1) cs ∧ fyLoop l (l.length - 1) cs = l2) :=
  ⟨fun _ i h0 h1 => floorMul_le h0 h1 i,
    fun cs => fyLoop_perm cs l _,
    fun _ _ => rfl,
    fun l2 hp => fyLoop_bij l hnd l2 hp⟩

/-- C5 (amended): with in-contract randomness, a nonempty history of size `N`
and a nonnegative limit, the sampler selects exactly
`min(N, ceil(limit / 2))` source articles, at pairwise-distinct in-range
indices of the history; for a negative limit it selects none. -/
theorem sampler_count_and_distinct (rng : Rng) (h : ValidRng rng)
    (visited : List VisitedArticle) (limit : Int) (hN : 1 ≤ visited.length)
    (hl : 0 ≤ limit) :
    ((sourceArticlesOf rng visited limit).length : Int) =
      min (visited.length : Int) (ceilHalf limit) ∧
    (selectedIndices rng visited.length limit).Nodup ∧
    ∀ i ∈ selectedIndices rng visited.length limit, i < visited.length := by
  obtain ⟨h1, h2, h3⟩ := selectedIndices_spec h visited.length limit
  refine ⟨?_, h2, h3⟩
  unfold sourceArticlesOf
  rw [List.length_map, h1]
  unfold sampleDrawCount maxSourceArticles ceilHalf
  omega

/-- C6: the call never rejects: `loading` is cleared on every path, and the
outcome is either a successful result with `error = none` or the catch
branch's empty result with the user-facing message. -/
theorem never_rejects_loading_cleared (f : Fetchers) (rng : Rng)
    (visited : List VisitedArticle) (limit : Int) :
    (getRecommendations f rng visited limit).loading = false ∧
    ((getRecommendations f rng visited limit).error = none ∨
      ((getRecommendations f rng visited limit).error =
        some "Failed to fetch recommendations" ∧
        (getRecommendations f rng visited limit).result = [])) :=
  ⟨getRecommendations_loading_false f rng visited limit,
    Or.inl (getRecommendations_error_none f rng visited limit)⟩

/-- C7: each source article's slot in the link results depends only on its
own fetch — the fetched list on success, `[]` on failure — siblings are
unaffected, the merge step consumes exactly this list of per-source results,
and the overall call completes without error. -/
theorem link_failure_isolated_per_source (f : Fetchers) (rng : Rng)
    (visited : List VisitedArticle) (limit : Int) (k : Nat)
    (hk : k < (sourceArticlesOf rng visited limit).length) :
    ((linkResultsOf f rng visited limit).getD k [] =
      orEmpty (linkAttempt f rng visited limit k)) ∧
    (∀ e, linkAttempt f rng visited limit k = .error e →
      (linkResultsOf f rng visited limit).getD k [] = []) ∧
    allCandidatesOf f rng visited limit =
      mergeCandidates (visitedTitles visited)
        (linkResultsOf f rng visited limit) ∧
    (getRecommendations f rng visited limit).error = none :=
  ⟨linkResultsOf_getD f rng visited limit k hk,
    fun e he => by rw [linkResultsOf_getD f rng visited limit k hk, he]; rfl,
    rfl,
    getRecommendations_error_none f rng visited limit⟩

/-- C8: an empty visited history resolves to the empty list with no error and
no network request of any kind. -/
theorem empty_history_no_fetches (f : Fetchers) (rng : Rng) (limit : Int) :
    getRecommendations f rng [] limit =
      { result := [], error := none, loading := false, requests := [] } := rfl

/-- C9: a nonpositive limit resolves to the empty list with no error, no
request of any kind, and zero sampled source articles. -/
theorem nonpositive_limit_empty_run (f : Fetchers) (rng : Rng)
    (visited : List VisitedArticle) {limit : Int} (h : limit ≤ 0) :
    getRecommendations f rng visited limit =
      { result := [], error := none, loading := false, requests := [] } ∧
    sourceArticlesOf rng visited limit = [] := by
  refine ⟨?_, sourceArticlesOf_nonpos h rng visited⟩
  cases visited with
  | nil => rfl
  | cons v vs =>
      rw [getRecommendations_nonempty f rng (v :: vs) limit (by simp)]
      have htargets : summaryTargetsOf f rng (v :: vs) limit = [] :=
        summaryTargets_nonpos h _
      have hreq : requestsOf f rng (v :: vs) limit = [] := by
        unfold requestsOf linkRequestsOf
        rw [sourceArticlesOf_nonpos h, htargets]
        rfl
      have hrec : recommendationsOf f rng (v :: vs) limit = [] := by
        unfold recommendationsOf
        rw [htargets]
        rfl
      rw [hreq, hrec]

/-- C10: the pipeline is a pure function of the visited history, the limit,
the random stream, and the per-title fetcher outcomes: two runs with
pointwise-equal oracles produce identical outcomes (result, error, loading,
and requests). -/
theorem deterministic_given_oracles (f1 f2 : Fetchers) (rng1 rng2 : Rng)
    (visited1 visited2 : List VisitedArticle) (limit1 limit2 : Int)
    (hrng : ∀ n, rng1 n = rng2 n)
    (hb : ∀ t, f1.fetchArticleBacklinks t = f2.fetchArticleBacklinks t)
    (hfl : ∀ t, f1.fetchArticleLinks t = f2.fetchArticleLinks t)
    (hs : ∀ t, f1.fetchArticleSummary t = f2.fetchArticleSummary t)
    (hv : visited1 = visited2) (hl : limit1 = limit2) :
    getRecommendations f1 rng1 visited1 limit1 =
      getRecommendations f2 rng2 visited2 limit2 := by
  have hf : f1 = f2 := by
    cases f1
    cases f2
    simp only [Fetchers.mk.injEq]
    exact ⟨funext hb, funext hfl, funext hs⟩
  have hr : rng1 = rng2 := funext hrng
  rw [hf, hr, hv, hl]

/-! ## Concrete counterexamples and witnesses

The arithmetic of `ℚ` is `@[irreducible]` in Batteries, which blocks kernel
evaluation of concrete runs; restoring the default reducibility lets `decide`
evaluate the pipeline on the fixtures. -/

section ConcreteRuns

attribute [local semireducible] Rat.mul Rat.add Rat.sub Rat.inv

/-- C1 counterexample: with one visited article, three merged candidates and
`limit = 1`, only 1 candidate is submitted to summary fetching, not
`min(candidateCount, limit + 5) = 3` as claimed. -/
theorem summary_fetch_count_counterexample :
    ¬(((summaryTargetsOf fxC1 (constRng (3 / 5)) vC1 1).length : Int) =
      min ((allCandidatesOf fxC1 (constRng (3 / 5)) vC1 1).length : Int)
        (1 + 5)) := by
  decide

/-- C2 counterexample: the candidate `X` is selected for summary resolution,
its summary fetch succeeds with a null article, and the call resolves to the
empty list — the selected candidate is dropped rather than resolved to a stub
or full item. -/
theorem summary_null_record_dropped :
    summaryTargetsOf fxC2 (constRng (3 / 5)) vC2 2 = ["X"] ∧
    (getRecommendations fxC2 (constRng (3 / 5)) vC2 2).result = [] := by
  decide

/-- C2 witness: the amended characterization evaluated on the null-article
fixture. -/
theorem summary_resolution_collects_witness :
    recommendationsOf fxC2 (constRng (3 / 5)) vC2 2 =
      (((summaryTargetsOf fxC2 (constRng (3 / 5)) vC2 2).map
        (resolveSummary fxC2)).filterMap id).take (2 : Int).toNat :=
  (@summary_resolution_collects_non_null_in_order fxC2 (constRng (3 / 5)) vC2
    2 (by decide)).1

/-- C3 counterexample: (a) a summary endpoint that returns a record titled
like the visited article makes the result contain a visited title; (b) for a
negative limit the result (empty) has more than `limit` items. -/
theorem results_distinctness_counterexample :
    (∃ it ∈ (getRecommendations fxC3 (constRng (3 / 5)) vC3 2).result,
      it.title ∈ visitedTitles vC3) ∧
    ¬(((getRecommendations fxC3 (constRng (3 / 5)) vC3 (-1)).result.length :
      Int) ≤ -1) := by
  decide

/-- C3 witness: the amended claim evaluated on a run whose summary fetch
always throws (title preservation holds vacuously). -/
theorem results_bounded_distinct_witness :
    (((getRecommendations fxC3w (constRng (3 / 5)) vC3 2).result.length :
      Int) ≤ 2) ∧
    ((getRecommendations fxC3w (constRng (3 / 5)) vC3 2).result.map
      (fun it => it.title)).Nodup :=
  ⟨(results_bounded_distinct_unvisited fxC3w (constRng (3 / 5)) vC3 2
      (by decide) (by decide) (fun t s hs => by simp [fxC3w] at hs)).1,
    (results_bounded_distinct_unvisited fxC3w (constRng (3 / 5)) vC3 2
      (by decide) (by decide) (fun t s hs => by simp [fxC3w] at hs)).2.1⟩

/-- C4 witness: on the two-element candidate list, the target permutation
`["b", "a"]` is produced by exactly one valid choice vector. -/
theorem fisher_yates_unbiased_witness :
    ∃! cs, ValidFor 1 cs ∧ fyLoop ["a", "b"] 1 cs = ["b", "a"] :=
  (fisher_yates_unbiased_bijection ["a", "b"] (by decide)).2.2.2 ["b", "a"]
    (by decide)

/-- C5 counterexample: for `N = 1` and `limit = -2` the sampler selects 0
source articles, while `min(N, ceil(limit / 2)) = -1`. -/
theorem sampler_count_counterexample :
    ¬(((sourceArticlesOf (constRng 0) [⟨"A", 0⟩] (-2)).length : Int) =
      min (([⟨"A", 0⟩] : List VisitedArticle).length : Int) (ceilHalf (-2))) := by
  decide

/-- C5 witness: the amended sampler count evaluated on a singleton history
with `limit = 4`. -/
theorem sampler_count_and_distinct_witness :
    ((sourceArticlesOf (constRng 0) [⟨"A", 0⟩] 4).length : Int) =
      min (([⟨"A", 0⟩] : List VisitedArticle).length : Int) (ceilHalf 4) :=
  (sampler_count_and_distinct (constRng 0)
      (fun _ => ⟨le_refl 0, show (0 : ℚ) < 1 by norm_num⟩) [⟨"A", 0⟩] 4
      (by decide) (by decide)).1

/-- C7 witness: in a run where the backlink fetch for the first sampled
source throws, that source's slot in the link results is the empty list. -/
theorem link_failure_isolated_witness :
    (linkResultsOf fxC7 (constRng (3 / 5)) vC7 4).getD 0 [] = [] :=
  (link_failure_isolated_per_source fxC7 (constRng (3 / 5)) vC7 4 0
    (by decide)).2.1 "boom" (by rfl)

/-- C9 witness: a negative limit on a nonempty history yields the empty
outcome with no requests. -/
theorem nonpositive_limit_empty_run_witness :
    getRecommendations
        { fetchArticleBacklinks := fun _ => .ok ["X"]
          fetchArticleLinks := fun _ => .ok ["Y"]
          fetchArticleSummary := fun _ => .ok none }
        (constRng 0) [⟨"A", 0⟩] (-3) =
      { result := [], error := none, loading := false, requests := [] } :=
  (@nonpositive_limit_empty_run
    { fetchArticleBacklinks := fun _ => .ok ["X"]
      fetchArticleLinks := fun _ => .ok ["Y"]
      fetchArticleSummary := fun _ => .ok none }
    (constRng 0) [⟨"A", 0⟩] (-3) (by decide)).1

/-- C10 witness: two runs with identical oracles on a concrete input agree. -/
theorem deterministic_given_oracles_witness :
    getRecommendations
        { fetchArticleBacklinks := fun _ => .ok []
          fetchArticleLinks := fun _ => .ok []
          fetchArticleSummary := fun _ => .ok none }
        (constRng 0) [⟨"A", 0⟩] 1 =
      getRecommendations
        { fetchArticleBacklinks := fun _ => .ok []
          fetchArticleLinks := fun _ => .ok []
          fetchArticleSummary := fun _ => .ok none }
        (constRng 0) [⟨"A", 0⟩] 1 :=
  deterministic_given_oracles _ _ _ _ _ _ _ _ (fun _ => rfl) (fun _ => rfl)
    (fun _ => rfl) (fun _ => rfl) rfl rfl

end ConcreteRuns

end WikiFlow
